import Mathlib

/-!
Verification development for the semiring-generic differentiable dynamic-programming
substrate of `torch_struct/helpers.py`: the `Get`/`Set` differentiable chart operators,
the `Chart` table, and the `_Struct` driver (`sum`, `marginals`, `_bin_length`, and the
unimplemented hooks).  Tensors are modelled shallowly as a shape (list of dimension
sizes) together with row-major flat data over an exact scalar carrier (`Int`); the
semiring, the concrete `_dp` recurrence and the automatic-differentiation engine are
external collaborators and are modelled as explicit function parameters, exactly as the
driver consumes them.
-/

namespace TorchStruct

/-- Dense tensors: a shape (list of dimension sizes, outermost first) and row-major
flat data.  The scalar carrier is `Int`, an exact stand-in for the numeric dtype; the
claims under verification are structural (shapes, indexing, accumulation), not about
floating-point rounding. -/
structure Tensor where
  shape : List Nat
  data : List Int
deriving Repr, DecidableEq

/-- Well-formedness: the flat data holds exactly one scalar per multi-index. -/
def Tensor.wf (t : Tensor) : Prop := t.data.length = t.shape.prod

instance (t : Tensor) : Decidable t.wf := by unfold Tensor.wf; infer_instance

/-- A tensor of the given shape filled with one value (models `torch.zeros(...)` and
constant fills such as `fill_(0.0)` or a semiring `zero_`). -/
def fullT (sh : List Nat) (z : Int) : Tensor := ⟨sh, List.replicate sh.prod z⟩

/-- One atom of a basic-indexing tuple: an integer index or a full slice `:`. -/
inductive Atom where
  | idx (n : Nat)
  | all
deriving Repr, DecidableEq

/-- The `j`-th contiguous block of size `sz` of a flat data list (the data of the
`j`-th subtensor along the leading axis, when `sz` is the trailing element count). -/
def sliceData (data : List Int) (sz j : Nat) : List Int :=
  (data.drop (j * sz)).take sz

/-- Shape of the result of basic indexing with a tuple of atoms: integer atoms consume
an axis, full slices keep it; `none` on rank or range mismatch. -/
def indexShape : List Atom → List Nat → Option (List Nat)
  | [], sh => some sh
  | _ :: _, [] => none
  | .idx n :: rest, d :: ds => if n < d then indexShape rest ds else none
  | .all :: rest, d :: ds => (indexShape rest ds).map (d :: ·)

/-- Sequence a list of optional results (explicit recursion, used for the sliced
subcomputations under a full-slice atom). -/
def omap (f : α → Option β) : List α → Option (List β)
  | [] => some []
  | a :: as =>
    match f a, omap f as with
    | some b, some bs => some (b :: bs)
    | _, _ => none

/-- Flat data of the result of basic indexing `tensor[atoms]`. -/
def indexData : List Atom → List Nat → List Int → Option (List Int)
  | [], _, data => some data
  | _ :: _, [], _ => none
  | .idx n :: rest, d :: ds, data =>
      if n < d then indexData rest ds (sliceData data ds.prod n) else none
  | .all :: rest, d :: ds, data =>
      (omap (fun j => indexData rest ds (sliceData data ds.prod j)) (List.range d)).map
        List.flatten

/-- Flat data of the result of the basic-indexing assignment `tensor[atoms] = vals`
(shape-matched assignment: `vals` must carry exactly the selected element count). -/
def setData : List Atom → List Nat → List Int → List Int → Option (List Int)
  | [], sh, _, vals => if vals.length = sh.prod then some vals else none
  | _ :: _, [], _, _ => none
  | .idx n :: rest, d :: ds, data, vals =>
      if n < d then
        (setData rest ds (sliceData data ds.prod n) vals).map
          (fun c => data.take (n * ds.prod) ++ c ++ data.drop ((n + 1) * ds.prod))
      else none
  | .all :: rest, d :: ds, data, vals =>
      (indexShape rest ds).bind fun sh2 =>
        if vals.length = d * sh2.prod then
          (omap (fun j =>
              setData rest ds (sliceData data ds.prod j) (sliceData vals sh2.prod j))
            (List.range d)).map List.flatten
        else none

/-- Basic indexing at the tensor level: `tensor[atoms]`. -/
def getTensor (t : Tensor) (atoms : List Atom) : Option Tensor :=
  (indexShape atoms t.shape).bind fun sh =>
    (indexData atoms t.shape t.data).map fun d => ⟨sh, d⟩

/-- Basic-indexing assignment at the tensor level: `tensor[atoms] = vals`, requiring
the written values to match the selected subtensor shape. -/
def setTensor (t : Tensor) (atoms : List Atom) (vals : Tensor) : Option Tensor :=
  (indexShape atoms t.shape).bind fun sh2 =>
    if vals.shape = sh2 then (setData atoms t.shape t.data vals.data).map (⟨t.shape, ·⟩)
    else none

/-- Forward pass of the `Get` autograd function: `Get.forward(ctx, chart, grad_chart,
indices)` returns `chart[indices]`, saving `grad_chart` and `indices` for the backward
pass.  The saved gradient buffer plays no role in the forward value. -/
def getForward (chart gradChart : Tensor) (indices : List Atom) : Option Tensor :=
  getTensor chart indices

/-- Backward pass of the `Get` autograd function: `grad_chart[indices] += grad_output`,
then return `(grad_chart, None, None)`.  The saved buffer is the per-chart accumulator
shared by every read of the chart; it is threaded here as an explicitly passed value
(the current buffer in, the updated buffer out), and the two `none` components are the
absent gradients for the `grad_chart` and `indices` arguments.  Shape-matched
`grad_output` is modelled (the in-place `+=` with a matching slice). -/
def getBackward (gradChart : Tensor) (indices : List Atom) (gradOutput : Tensor) :
    Option (Tensor × Option Tensor × Option Tensor) :=
  (getTensor gradChart indices).bind fun cur =>
    if gradOutput.shape = cur.shape ∧ gradOutput.data.length = cur.data.length then
      (setData indices gradChart.shape gradChart.data
          (List.zipWith (· + ·) cur.data gradOutput.data)).map
        (fun d2 => (⟨gradChart.shape, d2⟩, none, none))
    else none

/-- Forward pass of the `Set` autograd function: `chart[indices] = vals; return chart`.
The assignment happens on the chart tensor itself (in place); the value returned is the
post-write table. -/
def setForward (chart : Tensor) (indices : List Atom) (vals : Tensor) : Option Tensor :=
  setTensor chart indices vals

/-- Backward pass of the `Set` autograd function: `z = grad_output[ctx.indices]`,
returning `(None, None, z)` — no gradient to the prior chart state or the indices, full
gradient to the written values. -/
def setBackward (gradOutput : Tensor) (indices : List Atom) :
    Option (Option Tensor × Option Tensor × Tensor) :=
  (getTensor gradOutput indices).map (fun z => (none, none, z))

/-- The value state of a `Chart`: the `data` table, the `grad` accumulation buffer, and
the `cache` flag selecting differentiable (`Get`/`Set`) versus direct tensor access. -/
structure ChartT where
  data : Tensor
  grad : Tensor
  cache : Bool
deriving Repr, DecidableEq

/-- Chart construction: `data` is the semiring additive identity everywhere (the
`semiring.zero_` fill, modelled as a constant fill with the identity value `zval`) over
shape `(semiring.size(),) + size`, and `grad` is a numeric-zero clone of it. -/
def ChartT.init (ssize : Nat) (size : List Nat) (zval : Int) (cache : Bool) : ChartT :=
  { data := fullT (ssize :: size) zval
    grad := fullT (ssize :: size) 0
    cache := cache }

/-- Python errors surfaced by the modelled code paths. -/
inductive PyError where
  | notImplementedError
  | typeError
  | indexError
deriving Repr, DecidableEq

/-- An index as supplied by a caller of `Chart.__getitem__` and friends: either a tuple
of atoms or a bare (non-tuple) atom such as a lone integer or a lone slice. -/
inductive PyIx where
  | tup (atoms : List Atom)
  | bare (a : Atom)
deriving Repr, DecidableEq

/-- Resolution of tensor-level indexing failure into the surfaced error. -/
def exceptOfOption (o : Option α) : Except PyError α :=
  match o with
  | some x => .ok x
  | none => .error .indexError

/-- The expression `(I, I) + ind` with `I = slice(None)`: tuple concatenation prepends
two full slices when `ind` is a tuple and raises `TypeError` otherwise (a non-tuple
cannot be concatenated onto a tuple). -/
def prependSlices (ind : PyIx) : Except PyError (List Atom) :=
  match ind with
  | .tup atoms => .ok ([Atom.all, Atom.all] ++ atoms)
  | .bare _ => .error .typeError

/-- Direct tensor indexing with a caller-supplied index: the underlying tensor accepts
both a tuple of atoms and a bare atom (treated as a one-atom tuple). -/
def tensorIndexPy (t : Tensor) (ind : PyIx) : Option Tensor :=
  match ind with
  | .tup atoms => getTensor t atoms
  | .bare a => getTensor t [a]

/-- Direct tensor-indexing assignment with a caller-supplied index. -/
def tensorSetPy (t : Tensor) (ind : PyIx) (vals : Tensor) : Option Tensor :=
  match ind with
  | .tup atoms => setTensor t atoms vals
  | .bare a => setTensor t [a] vals

/-- Value semantics of `Chart.__getitem__(ind)`: form `(I, I) + ind` (so a non-tuple
index raises `TypeError` before any read), then read through `Get.apply` when caching
and through direct indexing otherwise; both branches produce the same value. -/
def chartGetitem (c : ChartT) (ind : PyIx) : Except PyError Tensor :=
  match prependSlices ind with
  | .error e => .error e
  | .ok atoms =>
      if c.cache then exceptOfOption (getForward c.data c.grad atoms)
      else exceptOfOption (getTensor c.data atoms)

/-- Value semantics of `Chart.__setitem__(ind, new)`: form `(I, I) + ind` (so a
non-tuple index raises `TypeError` before any write), then write through `Set.apply`
when caching and through direct assignment otherwise; both branches produce the same
table value (aliasing of the underlying storage is treated in the heap model below). -/
def chartSetitem (c : ChartT) (ind : PyIx) (new : Tensor) : Except PyError ChartT :=
  match prependSlices ind with
  | .error e => .error e
  | .ok atoms =>
      match setForward c.data atoms new with
      | some d2 => .ok { c with data := d2 }
      | none => .error .indexError

/-- Value semantics of `Chart.get(ind)`: `Get.apply(self.data, self.grad, ind)` with
the index passed through unmodified, so any index the tensor accepts is accepted. -/
def chartGet (c : ChartT) (ind : PyIx) : Except PyError Tensor :=
  exceptOfOption (tensorIndexPy c.data ind)

/-- Value semantics of `Chart.set(ind, new)`: `self.data = Set.apply(self.data, ind,
new)` with the index passed through unmodified. -/
def chartSet (c : ChartT) (ind : PyIx) (new : Tensor) : Except PyError ChartT :=
  match tensorSetPy c.data ind new with
  | some d2 => .ok { c with data := d2 }
  | none => .error .indexError

/-! Heap model for aliasing: Python tensors are references into a store of tensor
values, so in-place assignment through one reference is observable through every alias
of the same object. -/

/-- A reference to a tensor object. -/
abbrev Ref := Nat

/-- The object store: tensor values addressed by `Ref`. -/
abbrev Store := List Tensor

/-- Dereference. -/
def Store.read (σ : Store) (r : Ref) : Option Tensor := σ.get? r

/-- Overwrite the object at an address (in-place mutation of that object). -/
def Store.write (σ : Store) (r : Ref) (t : Tensor) : Store := σ.set r t

/-- The heap-level `Set.apply(chart, indices, vals)`: `Set.forward` executes
`chart[indices] = vals`, an in-place assignment on the tensor object behind `r`, and
returns that same object, so the result reference equals the argument reference. -/
def setApplyH (σ : Store) (r : Ref) (indices : List Atom) (vals : Tensor) :
    Option (Store × Ref) :=
  (σ.read r).bind fun t =>
    (setForward t indices vals).map fun t2 => (σ.write r t2, r)

/-- A `Chart` in the heap model: references to its `data` and `grad` tensors. -/
structure ChartH where
  dataRef : Ref
  gradRef : Ref
  cache : Bool
deriving Repr, DecidableEq

/-- Heap-level `Chart.__setitem__(ind, new)` with caching on: `self.data =
Set.apply(self.data, (I, I) + ind, new)` rebinds the `data` attribute to the reference
returned by `Set.apply`; without caching the assignment happens directly with no
rebinding.  A bare (non-tuple) index is a `TypeError` and leaves the store unchanged
(that path is covered by the pure model above; here the index is already a tuple). -/
def chartSetitemH (σ : Store) (c : ChartH) (ind : List Atom) (new : Tensor) :
    Option (Store × ChartH) :=
  if c.cache then
    (setApplyH σ c.dataRef ([Atom.all, Atom.all] ++ ind) new).map
      (fun p => (p.1, { c with dataRef := p.2 }))
  else
    (setApplyH σ c.dataRef ([Atom.all, Atom.all] ++ ind) new).map
      (fun p => (p.1, c))

/-- Heap-level `Chart.set(ind, new)`: same rebinding pattern, index unmodified. -/
def chartSetH (σ : Store) (c : ChartH) (ind : List Atom) (new : Tensor) :
    Option (Store × ChartH) :=
  (setApplyH σ c.dataRef ind new).map (fun p => (p.1, { c with dataRef := p.2 }))

/-! Tensor operations used by the driver: reshape, broadcasting multiply, leading-axis
select, leading-axis sum, and stacking. -/

/-- Reshape (`tensor.view(newShape)`): succeeds exactly when the element counts
agree. -/
def Tensor.view (t : Tensor) (newShape : List Nat) : Option Tensor :=
  if t.data.length = newShape.prod then some ⟨newShape, t.data⟩ else none

/-- Broadcast one dimension pair. -/
def broadcastDim (a b : Nat) : Option Nat :=
  if a = b then some a else if a = 1 then some b else if b = 1 then some a else none

/-- Broadcast two shapes: align from the trailing axis, padding the shorter shape with
leading singleton axes. -/
def broadcastShape (s1 s2 : List Nat) : Option (List Nat) :=
  let n := max s1.length s2.length
  let p1 := List.replicate (n - s1.length) 1 ++ s1
  let p2 := List.replicate (n - s2.length) 1 ++ s2
  omap (fun p => broadcastDim p.1 p.2) (p1.zip p2)

/-- Row-major multi-index of flat position `p` in a tensor of shape `sh`. -/
def multiIndex : List Nat → Nat → List Nat
  | [], _ => []
  | _ :: ds, p => (p / ds.prod) :: multiIndex ds (p % ds.prod)

/-- Row-major flat position of a multi-index. -/
def flatOf : List Nat → List Nat → Nat
  | _, [] => 0
  | [], _ => 0
  | _ :: ds, c :: cs => c * ds.prod + flatOf ds cs

/-- Read an operand at a broadcast result index: drop the padded leading coordinates,
clamp coordinates of singleton axes to zero, then read the flat position. -/
def broadcastGet (t : Tensor) (ix : List Nat) : Int :=
  let cs := ix.drop (ix.length - t.shape.length)
  let cs2 := List.zipWith (fun d c => if d = 1 then 0 else c) t.shape cs
  t.data.getD (flatOf t.shape cs2) 0

/-- Elementwise multiply with broadcasting (`a.mul(b)`). -/
def Tensor.mul (a b : Tensor) : Option Tensor :=
  (broadcastShape a.shape b.shape).map fun sh =>
    ⟨sh, (List.range sh.prod).map fun p =>
        broadcastGet a (multiIndex sh p) * broadcastGet b (multiIndex sh p)⟩

/-- Select along the leading axis (`t[k]` for integer `k`); meaningful for positive
rank and `k` within the leading dimension, as in its uses. -/
def Tensor.select0 (t : Tensor) (k : Nat) : Tensor :=
  match t.shape with
  | [] => ⟨[], t.data⟩
  | _ :: ds => ⟨ds, sliceData t.data ds.prod k⟩

/-- Sum along the leading axis (`t.sum(dim=0)`); meaningful for positive rank, as in
its uses. -/
def Tensor.sumDim0 (t : Tensor) : Tensor :=
  match t.shape with
  | [] => t
  | d :: ds =>
      ⟨ds, (List.range ds.prod).map fun p =>
          ((List.range d).map fun j => t.data.getD (j * ds.prod + p) 0).sum⟩

/-- Stack along a new leading axis (`torch.stack(ts, dim=0)`); meaningful for a
nonempty list of same-shaped tensors, as in its use. -/
def Tensor.stack0 (ts : List Tensor) : Tensor :=
  ⟨ts.length :: (ts.headD ⟨[], []⟩).shape, (ts.map Tensor.data).flatten⟩

/-! The `_Struct` driver.  The semiring, the concrete `_dp` recurrence, the optional
`_dp_backward`, and the automatic-differentiation engine are external collaborators;
they enter the model as explicit data, exactly as the driver consumes them. -/

/-- Identity token of a semiring class, used for the `semiring is LogSemiring`
identity test in `sum` and `marginals`. -/
inductive SemiringId where
  | log
  | other (n : Nat)
deriving Repr, DecidableEq

/-- The slice of the semiring interface the driver touches here: its class identity
and `unconvert` (extraction of a plain value out of the internal representation). -/
structure SemiringM where
  sid : SemiringId
  unconvert : Tensor → Tensor

/-- Optional per-batch lengths. -/
abbrev Lengths := Option (List Nat)

/-- The third return of `_dp`: retained chart state consumed by `_dp_backward`. -/
abbrev Alpha := List Tensor

/-- A `_Struct` instance: its one attribute `semiring`, the collaborator recurrence
`_dp(scores, lengths, force_grad, cache) -> (value, edges, alpha)`, the optional
manual-backward capability (`hasattr(self, "_dp_backward")` is its presence), and the
`_arrange_marginals` method (overridable; base behavior below). -/
structure StructM where
  semiring : SemiringM
  dp : Tensor → Lengths → Bool → Bool → (Tensor × List Tensor × Alpha)
  dpBackward : Option (Tensor → Lengths → Alpha → Tensor)
  arrangeMarginals : List Tensor → Tensor

/-- Base `_Struct._arrange_marginals(marg) = marg[0]`: keep only the first edge
tensor gradient. -/
def arrangeMarginalsBase (marg : List Tensor) : Tensor := marg.headD ⟨[], []⟩

/-- Body of `DPManual.backward(ctx, grad_v)`: recompute `marginals =
self._dp_backward(edge, lengths, alpha)`, then return `marginals.mul(
grad_v.view((grad_v.shape[0],) + tuple([1] * marginals.dim())))`.  `none` models the
runtime failures: a missing `_dp_backward`, `grad_v.shape[0]` on a rank-zero tensor,
an element-count mismatch in `view`, or an impossible broadcast. -/
def dpManualBackward (s : StructM) (edge : Tensor) (lengths : Lengths) (alpha : Alpha)
    (gradV : Tensor) : Option Tensor :=
  match s.dpBackward with
  | none => none
  | some db =>
      let marginals := db edge lengths alpha
      match gradV.shape with
      | [] => none
      | b :: _ =>
          (gradV.view (b :: List.replicate marginals.shape.length 1)).bind fun gv =>
            marginals.mul gv

/-- Result of one `sum` call: the returned value, which branch ran, and the manual
backward closure when the manual path ran (the `DPManual` node's backward). -/
structure SumOut where
  value : Tensor
  usedAutograd : Bool
  manualGrad : Option (Tensor → Option Tensor)

/-- The `_Struct.sum(edge, lengths, _autograd, _raw)` driver, in state-passing form:
the returned `StructM` is the post-call object state (the method assigns no attribute,
so it is the input state).  Branch: the autograd path runs when `_autograd` is set, or
the semiring is not the log semiring, or there is no `_dp_backward`; it takes `v =
_dp(edge, lengths)[0]` and returns `v` raw or `semiring.unconvert(v)`.  Otherwise the
manual path takes `(v, _, alpha) = _dp(edge, lengths, False)` and returns `v` wrapped
in the `DPManual` identity node whose backward is `dpManualBackward`. -/
def StructM.sum (s : StructM) (edge : Tensor) (lengths : Lengths)
    (autogradFlag raw : Bool) : SumOut × StructM :=
  if autogradFlag = true ∨ s.semiring.sid ≠ SemiringId.log ∨ s.dpBackward.isNone = true
  then
    let v := (s.dp edge lengths false true).1
    ({ value := if raw then v else s.semiring.unconvert v
       usedAutograd := true
       manualGrad := none }, s)
  else
    let r := s.dp edge lengths false true
    ({ value := r.1
       usedAutograd := false
       manualGrad := some fun gv => dpManualBackward s edge lengths r.2.2 gv }, s)

/-- The differentiation engine as the driver consumes it: `torch.autograd.grad(obj,
edges)` producing one gradient per edge tensor. -/
structure AutogradOracle where
  grad : Tensor → List Tensor → List Tensor

/-- Observable interaction of one `marginals` call with its collaborators: the
`force_grad` and `cache` flags passed to `_dp`, the objectives handed to the
differentiation engine in order, and the number of engine invocations. -/
structure MarginalsTrace where
  dpForceGrad : Bool
  dpCache : Bool
  objectives : List Tensor
  gradCalls : Nat

/-- The `_Struct.marginals(edge, lengths, _autograd, _raw)` driver.  Autograd path:
`(v, edges, _) = _dp(edge, lengths, force_grad=True, cache=not _raw)`; with `_raw`,
for each semiring slot `k` the objective `v[k].sum(dim=0)` is differentiated and the
unconverted arranged gradients are stacked along a new leading axis; otherwise the one
objective `unconvert(v).sum(dim=0)` is differentiated once.  Manual path: run `_dp`
with `force_grad=True` and return `_dp_backward(edge, lengths, alpha)` directly. -/
def StructM.marginals (s : StructM) (eng : AutogradOracle) (edge : Tensor)
    (lengths : Lengths) (autogradFlag raw : Bool) : Tensor × MarginalsTrace :=
  if autogradFlag = true ∨ s.semiring.sid ≠ SemiringId.log ∨ s.dpBackward.isNone = true
  then
    let r := s.dp edge lengths true (!raw)
    let v := r.1
    let edges := r.2.1
    if raw then
      let slots := v.shape.headD 0
      let objs := (List.range slots).map fun k => (v.select0 k).sumDim0
      let allM := objs.map fun obj =>
        s.semiring.unconvert (s.arrangeMarginals (eng.grad obj edges))
      (Tensor.stack0 allM,
       { dpForceGrad := true, dpCache := !raw, objectives := objs, gradCalls := slots })
    else
      let obj := (s.semiring.unconvert v).sumDim0
      let marg := eng.grad obj edges
      (s.semiring.unconvert (s.arrangeMarginals marg),
       { dpForceGrad := true, dpCache := !raw, objectives := [obj], gradCalls := 1 })
  else
    let r := s.dp edge lengths true true
    ((s.dpBackward.getD fun _ _ _ => ⟨[], []⟩) edge lengths r.2.2,
     { dpForceGrad := true, dpCache := true, objectives := [], gradCalls := 0 })

/-! Unimplemented hooks of the base `_Struct`: `_dp`, `enumerate` and `_rand` raise
`NotImplementedError` unconditionally.  No handler exists anywhere in this layer, so
the error propagates to the caller of the public API and nothing retries it. -/

/-- Base `_Struct._dp`: always `raise NotImplementedError`. -/
def baseDp (scores : Tensor) (lengths : Lengths) (forceGrad cache : Bool) :
    Except PyError (Tensor × List Tensor × Alpha) :=
  .error .notImplementedError

/-- Base `_Struct.enumerate`: always `raise NotImplementedError`. -/
def baseEnumerate (edge : Tensor) (lengths : Lengths) :
    Except PyError (Tensor × List Tensor) :=
  .error .notImplementedError

/-- Base `_Struct._rand(*args, **kwargs)`: always `raise NotImplementedError` (the
variadic arguments are opaque here). -/
def baseRand (args : List Nat) : Except PyError Tensor :=
  .error .notImplementedError

/-- Translation of `_Struct._bin_length(length)`: `log_N = int(math.ceil(
math.log(length, 2)))` and `bin_N = int(math.pow(2, log_N)) = 2 ^ log_N`.
`math.log(length, 2)` is NOT the exact real logarithm: CPython evaluates it as
`log(length) / log(2)` in binary64, so the value the ceiling sees is a platform
rounding of the true logarithm (for example `math.log(2 ** 29, 2)` evaluates to
`29.000000000000004`, strictly above 29).  Every binary64 value is a rational
number, so the platform logarithm enters the model as an explicit function
`flog2 : Nat → ℚ` supplied by the environment, and the translation applies the
ceiling to its value exactly as the source does. -/
def binLength (flog2 : Nat → ℚ) (length : Nat) : Nat × Nat :=
  let logN := (Int.toNat ⌈flog2 length⌉)
  (logN, 2 ^ logN)

/-! Concrete collaborator instances used to evaluate the driver at specific inputs. -/

/-- A log-semiring instance honoring the documented `unconvert` contract: extraction
removes the leading semiring-arity axis (arity one), keeping the batch axis first. -/
def squeezeUnconvert (t : Tensor) : Tensor := ⟨t.shape.drop 1, t.data⟩

/-- The log semiring as the driver sees it. -/
def logSemiringM : SemiringM := { sid := SemiringId.log, unconvert := squeezeUnconvert }

/-- A deterministic collaborator whose `_dp` returns the value `[[3, 5]]` (semiring
arity one, batch two) and one edge tensor, with no manual-backward capability. -/
def cexDpStruct : StructM :=
  { semiring := logSemiringM
    dp := fun _ _ _ _ => (⟨[1, 2], [3, 5]⟩, [⟨[1, 2], [0, 0]⟩], [])
    dpBackward := none
    arrangeMarginals := arrangeMarginalsBase }

/-- A differentiation engine stub returning the edge tensors themselves as their
gradients (its behavior is irrelevant to the traced objectives). -/
def idOracle : AutogradOracle := { grad := fun _ edges => edges }

/-- A collaborator with a manual-backward capability whose per-part marginals are the
batch-one table `[[3, 4]]` (shape `(1, 2)`: one batch element, two parts). -/
def manualStruct : StructM :=
  { semiring := logSemiringM
    dp := fun _ _ _ _ => (⟨[1], [0]⟩, [], [])
    dpBackward := some fun _ _ _ => ⟨[1, 2], [3, 4]⟩
    arrangeMarginals := arrangeMarginalsBase }

/-- A collaborator for exercising the `sum` branch condition: a non-log semiring and
no manual-backward capability. -/
def witSumStruct : StructM :=
  { semiring := { sid := SemiringId.other 0, unconvert := squeezeUnconvert }
    dp := fun _ _ _ _ => (⟨[1, 2], [3, 5]⟩, [], [])
    dpBackward := none
    arrangeMarginals := arrangeMarginalsBase }

/-! Supporting lemmas about the indexing language: sequencing, slicing, and the
write-then-read behavior of `setData`/`indexData`. -/

theorem omap_eq_map {α β : Type} {f : α → Option β} {g : α → β} :
    ∀ l : List α, (∀ a ∈ l, f a = some (g a)) → omap f l = some (l.map g) := by
  intro l
  induction l with
  | nil => intro _; rfl
  | cons a as ih =>
    intro h
    have ha := h a (List.mem_cons_self a as)
    have hrest := ih (fun x hx => h x (List.mem_cons_of_mem a hx))
    simp [omap, ha, hrest]

theorem omap_some_spec {α β : Type} {f : α → Option β} :
    ∀ {l : List α} {L : List β}, omap f l = some L →
      L.length = l.length ∧
      (∀ j a, l.get? j = some a → ∃ b, f a = some b ∧ L.get? j = some b) ∧
      (∀ b ∈ L, ∃ a ∈ l, f a = some b) := by
  intro l
  induction l with
  | nil =>
    intro L h
    simp [omap] at h
    subst h
    refine ⟨rfl, ?_, ?_⟩
    · intro j a hj; simp at hj
    · intro b hb; simp at hb
  | cons a as ih =>
    intro L h
    simp only [omap] at h
    cases hfa : f a with
    | none => rw [hfa] at h; simp at h
    | some b =>
      rw [hfa] at h
      cases hrest : omap f as with
      | none => rw [hrest] at h; simp at h
      | some bs =>
        rw [hrest] at h
        simp at h
        obtain ⟨h1, h2, h3⟩ := ih hrest
        subst h
        refine ⟨by simp [h1], ?_, ?_⟩
        · intro j x hj
          cases j with
          | zero =>
            simp at hj
            subst hj
            exact ⟨b, hfa, rfl⟩
          | succ j2 =>
            simp only [List.get?_cons_succ] at hj ⊢
            exact h2 j2 x hj
        · intro x hx
          rcases List.mem_cons.mp hx with h4 | h4
          · subst h4; exact ⟨a, List.mem_cons_self a as, hfa⟩
          · obtain ⟨y, hy, hfy⟩ := h3 x h4
            exact ⟨y, List.mem_cons_of_mem a hy, hfy⟩

theorem omap_exists_of_forall {α β : Type} {f : α → Option β} {P : β → Prop} :
    ∀ {l : List α}, (∀ a ∈ l, ∃ b, f a = some b ∧ P b) →
      ∃ L, omap f l = some L ∧ L.length = l.length ∧ ∀ b ∈ L, P b := by
  intro l
  induction l with
  | nil => intro _; exact ⟨[], rfl, rfl, by simp⟩
  | cons a as ih =>
    intro h
    obtain ⟨b, hb, hPb⟩ := h a (List.mem_cons_self a as)
    obtain ⟨L, hL, hlen, hall⟩ := ih (fun x hx => h x (List.mem_cons_of_mem a hx))
    refine ⟨b :: L, ?_, by simp [hlen], ?_⟩
    · simp [omap, hb, hL]
    · intro x hx
      rcases List.mem_cons.mp hx with h1 | h1
      · rw [h1]; exact hPb
      · exact hall x h1

theorem succ_mul_le (sz : Nat) {n d : Nat} (hn : n < d) : n * sz + sz ≤ d * sz := by
  calc n * sz + sz = (n + 1) * sz := by ring
    _ ≤ d * sz := Nat.mul_le_mul_right sz hn

theorem sliceData_length {data : List Int} {d sz n : Nat}
    (hlen : data.length = d * sz) (hn : n < d) : (sliceData data sz n).length = sz := by
  have h1 := succ_mul_le sz hn
  simp only [sliceData, List.length_take, List.length_drop, hlen]
  omega

theorem sliceData_replicate {d sz n : Nat} (z : Int) (hn : n < d) :
    sliceData (List.replicate (d * sz) z) sz n = List.replicate sz z := by
  have h1 := succ_mul_le sz hn
  rw [sliceData, List.drop_replicate, List.take_replicate]
  congr 1
  omega

theorem sliceData_flatten {sz : Nat} :
    ∀ (L : List (List Int)) (j : Nat), (∀ c ∈ L, c.length = sz) → j < L.length →
      sliceData L.flatten sz j = L.getD j [] := by
  intro L
  induction L with
  | nil => intro j _ hj; simp at hj
  | cons c cs ih =>
    intro j hlen hj
    have hc : c.length = sz := hlen c (List.mem_cons_self c cs)
    cases j with
    | zero =>
      rw [List.getD_cons_zero, List.flatten_cons]
      simp only [sliceData, Nat.zero_mul, List.drop_zero]
      rw [← hc]
      exact List.take_left c cs.flatten
    | succ j2 =>
      have hstep : sliceData (c :: cs).flatten sz (j2 + 1) = sliceData cs.flatten sz j2 := by
        simp only [sliceData, List.flatten_cons]
        rw [show (j2 + 1) * sz = sz + j2 * sz by ring, ← List.drop_drop (j2 * sz) sz,
          List.drop_left' hc]
      rw [hstep, List.getD_cons_succ]
      exact ih j2 (fun x hx => hlen x (List.mem_cons_of_mem c hx)) (by simpa using hj)

theorem flatten_chunks {sz : Nat} :
    ∀ (d : Nat) (vals : List Int), vals.length = d * sz →
      ((List.range d).map (fun j => sliceData vals sz j)).flatten = vals := by
  intro d
  induction d with
  | zero =>
    intro vals h
    have hv : vals = [] := List.length_eq_zero.mp (by simpa using h)
    simp [hv]
  | succ n ih =>
    intro vals h
    rw [List.range_succ_eq_map, List.map_cons, List.map_map, List.flatten_cons]
    have hcomp : ((fun j => sliceData vals sz j) ∘ Nat.succ)
        = fun j => sliceData (vals.drop sz) sz j := by
      funext j
      have hjs : Nat.succ j * sz = sz + j * sz := by rw [Nat.succ_mul]; omega
      simp only [Function.comp, sliceData]
      rw [hjs, ← List.drop_drop (j * sz) sz]
    have hdrop : (vals.drop sz).length = n * sz := by
      rw [List.length_drop, h, Nat.succ_mul]
      omega
    rw [hcomp, ih (vals.drop sz) hdrop]
    simp only [sliceData, Nat.zero_mul, List.drop_zero]
    exact List.take_append_drop sz vals

theorem flatten_length_const {sz : Nat} :
    ∀ {L : List (List Int)}, (∀ c ∈ L, c.length = sz) →
      L.flatten.length = L.length * sz := by
  intro L
  induction L with
  | nil => intro _; simp
  | cons c cs ih =>
    intro h
    rw [List.flatten_cons, List.length_append,
      ih (fun x hx => h x (List.mem_cons_of_mem c hx)),
      h c (List.mem_cons_self c cs), List.length_cons, Nat.succ_mul]
    ring

theorem flatten_replicate (d k : Nat) (z : Int) :
    (List.replicate d (List.replicate k z)).flatten = List.replicate (d * k) z := by
  induction d with
  | zero => simp
  | succ n ih =>
    rw [List.replicate_succ, List.flatten_cons, ih, Nat.succ_mul, Nat.add_comm,
      List.replicate_add]

theorem zipWith_replicate_zero_add :
    ∀ l : List Int, List.zipWith (· + ·) (List.replicate l.length 0) l = l := by
  intro l
  induction l with
  | nil => rfl
  | cons x xs ih => simp [List.replicate_succ, ih]

theorem setData_length :
    ∀ (atoms : List Atom) (sh : List Nat) (data vals out : List Int),
      data.length = sh.prod → setData atoms sh data vals = some out →
      out.length = sh.prod := by
  intro atoms
  induction atoms with
  | nil =>
    intro sh data vals out hd h
    simp only [setData] at h
    split_ifs at h with hv
    injection h with h2; rw [← h2]; exact hv
  | cons a rest ih =>
    intro sh data vals out hd h
    cases sh with
    | nil => cases a <;> simp [setData] at h
    | cons d ds =>
      have hdlen : data.length = d * ds.prod := by simpa [List.prod_cons] using hd
      cases a with
      | idx n =>
        simp only [setData] at h
        split_ifs at h with hn
        · cases hc : setData rest ds (sliceData data ds.prod n) vals with
          | none => rw [hc] at h; simp at h
          | some c =>
            rw [hc] at h
            simp at h
            have hslice : (sliceData data ds.prod n).length = ds.prod :=
              sliceData_length hdlen hn
            have hclen : c.length = ds.prod := ih ds _ vals c hslice hc
            have h1 := succ_mul_le ds.prod hn
            have h2 : (n + 1) * ds.prod = n * ds.prod + ds.prod := Nat.succ_mul n ds.prod
            rw [← h]
            simp only [List.length_append, List.length_take, List.length_drop, hdlen,
              hclen, List.prod_cons]
            omega
      | all =>
        simp only [setData] at h
        cases hsh : indexShape rest ds with
        | none => rw [hsh] at h; simp at h
        | some sh2 =>
          rw [hsh] at h
          simp only [Option.some_bind] at h
          split_ifs at h with hv
          · cases hom : omap (fun j =>
                setData rest ds (sliceData data ds.prod j) (sliceData vals sh2.prod j))
                (List.range d) with
            | none => rw [hom] at h; simp at h
            | some Cs =>
              rw [hom] at h
              simp at h
              obtain ⟨hlenCs, _, hmem⟩ := omap_some_spec hom
              have hall : ∀ c ∈ Cs, c.length = ds.prod := by
                intro c hcmem
                obtain ⟨j, hjmem, hj⟩ := hmem c hcmem
                have hjd : j < d := List.mem_range.mp hjmem
                exact ih ds _ _ c (sliceData_length hdlen hjd) hj
              rw [← h, flatten_length_const hall, hlenCs, List.length_range,
                List.prod_cons]

theorem setData_get :
    ∀ (atoms : List Atom) (sh : List Nat) (data vals out : List Int),
      data.length = sh.prod → setData atoms sh data vals = some out →
      indexData atoms sh out = some vals := by
  intro atoms
  induction atoms with
  | nil =>
    intro sh data vals out hd h
    simp only [setData] at h
    split_ifs at h with hv
    injection h with h2; rw [← h2]; rfl
  | cons a rest ih =>
    intro sh data vals out hd h
    cases sh with
    | nil => cases a <;> simp [setData] at h
    | cons d ds =>
      have hdlen : data.length = d * ds.prod := by simpa [List.prod_cons] using hd
      cases a with
      | idx n =>
        simp only [setData] at h
        split_ifs at h with hn
        · cases hc : setData rest ds (sliceData data ds.prod n) vals with
          | none => rw [hc] at h; simp at h
          | some c =>
            rw [hc] at h
            simp at h
            have hslice : (sliceData data ds.prod n).length = ds.prod :=
              sliceData_length hdlen hn
            have hc_len : c.length = ds.prod := setData_length rest ds _ vals c hslice hc
            have hn_le : n * ds.prod ≤ data.length := by
              rw [hdlen]; exact Nat.mul_le_mul_right _ (le_of_lt hn)
            have hA : (data.take (n * ds.prod)).length = n * ds.prod := by
              rw [List.length_take]; omega
            have hsl : sliceData (data.take (n * ds.prod)
                ++ (c ++ data.drop ((n + 1) * ds.prod))) ds.prod n = c := by
              simp only [sliceData]
              rw [List.drop_left' hA, List.take_left' hc_len]
            subst h
            simp only [indexData]
            rw [if_pos hn, hsl]
            exact ih ds _ vals c hslice hc
      | all =>
        simp only [setData] at h
        cases hsh : indexShape rest ds with
        | none => rw [hsh] at h; simp at h
        | some sh2 =>
          rw [hsh] at h
          simp only [Option.some_bind] at h
          split_ifs at h with hv
          · cases hom : omap (fun j =>
                setData rest ds (sliceData data ds.prod j) (sliceData vals sh2.prod j))
                (List.range d) with
            | none => rw [hom] at h; simp at h
            | some Cs =>
              rw [hom] at h
              simp at h
              subst h
              obtain ⟨hlenCs, hidx, hmem⟩ := omap_some_spec hom
              have hCs_d : Cs.length = d := by
                simpa [List.length_range] using hlenCs
              have hall : ∀ c ∈ Cs, c.length = ds.prod := by
                intro c hcmem
                obtain ⟨j, hjmem, hj⟩ := hmem c hcmem
                have hjd : j < d := List.mem_range.mp hjmem
                exact setData_length rest ds _ _ c (sliceData_length hdlen hjd) hj
              simp only [indexData]
              have hread : ∀ j ∈ List.range d,
                  indexData rest ds (sliceData Cs.flatten ds.prod j)
                    = some (sliceData vals sh2.prod j) := by
                intro j hj
                have hjd : j < d := List.mem_range.mp hj
                obtain ⟨cj, hfj, hgetj⟩ := hidx j j (List.get?_range hjd)
                have hgetD : Cs.getD j [] = cj := by
                  rw [List.getD_eq_getElem?_getD, ← List.get?_eq_getElem?, hgetj]; rfl
                rw [sliceData_flatten Cs j hall (hCs_d ▸ hjd), hgetD]
                exact ih ds _ _ cj (sliceData_length hdlen hjd) hfj
              rw [omap_eq_map (List.range d) hread]
              simp only [Option.map_some']
              rw [flatten_chunks d vals hv]

theorem setData_exists :
    ∀ (atoms : List Atom) (sh sh2 : List Nat) (data vals : List Int),
      data.length = sh.prod → indexShape atoms sh = some sh2 →
      vals.length = sh2.prod →
      ∃ out, setData atoms sh data vals = some out := by
  intro atoms
  induction atoms with
  | nil =>
    intro sh sh2 data vals hd hsh hv
    simp only [indexShape] at hsh
    injection hsh with hsh
    subst hsh
    exact ⟨vals, by simp only [setData]; rw [if_pos hv]⟩
  | cons a rest ih =>
    intro sh sh2 data vals hd hsh hv
    cases sh with
    | nil => cases a <;> simp [indexShape] at hsh
    | cons d ds =>
      have hdlen : data.length = d * ds.prod := by simpa [List.prod_cons] using hd
      cases a with
      | idx n =>
        simp only [indexShape] at hsh
        split_ifs at hsh with hn
        · obtain ⟨c, hc⟩ :=
            ih ds sh2 (sliceData data ds.prod n) vals (sliceData_length hdlen hn) hsh hv
          exact ⟨_, by simp only [setData]; rw [if_pos hn, hc]; rfl⟩
      | all =>
        simp only [indexShape] at hsh
        cases hsh2 : indexShape rest ds with
        | none => rw [hsh2] at hsh; simp at hsh
        | some sh3 =>
          rw [hsh2] at hsh
          simp at hsh
          subst hsh
          have hv2 : vals.length = d * sh3.prod := by
            simpa [List.prod_cons] using hv
          have hex : ∀ j ∈ List.range d, ∃ c,
              setData rest ds (sliceData data ds.prod j) (sliceData vals sh3.prod j)
                = some c ∧ True := by
            intro j hj
            have hjd : j < d := List.mem_range.mp hj
            obtain ⟨c, hc⟩ := ih ds sh3 _ _ (sliceData_length hdlen hjd) hsh2
              (sliceData_length hv2 hjd)
            exact ⟨c, hc, trivial⟩
          obtain ⟨Cs, hom, _, _⟩ := omap_exists_of_forall hex
          refine ⟨Cs.flatten, ?_⟩
          simp only [setData]
          rw [hsh2]
          simp only [Option.some_bind]
          rw [if_pos hv2, hom]
          rfl

theorem indexData_replicate :
    ∀ (atoms : List Atom) (sh sh2 : List Nat) (z : Int),
      indexShape atoms sh = some sh2 →
      indexData atoms sh (List.replicate sh.prod z)
        = some (List.replicate sh2.prod z) := by
  intro atoms
  induction atoms with
  | nil =>
    intro sh sh2 z hsh
    simp only [indexShape] at hsh
    injection hsh with hsh
    subst hsh
    rfl
  | cons a rest ih =>
    intro sh sh2 z hsh
    cases sh with
    | nil => cases a <;> simp [indexShape] at hsh
    | cons d ds =>
      cases a with
      | idx n =>
        simp only [indexShape] at hsh
        split_ifs at hsh with hn
        · simp only [indexData]
          rw [if_pos hn, show ((d :: ds).prod) = d * ds.prod from List.prod_cons,
            sliceData_replicate z hn]
          exact ih ds sh2 z hsh
      | all =>
        simp only [indexShape] at hsh
        cases hsh2 : indexShape rest ds with
        | none => rw [hsh2] at hsh; simp at hsh
        | some sh3 =>
          rw [hsh2] at hsh
          simp at hsh
          subst hsh
          simp only [indexData]
          have hrw : ∀ j ∈ List.range d,
              indexData rest ds (sliceData (List.replicate ((d :: ds).prod) z) ds.prod j)
                = some (List.replicate sh3.prod z) := by
            intro j hj
            have hjd : j < d := List.mem_range.mp hj
            rw [show ((d :: ds).prod) = d * ds.prod from List.prod_cons,
              sliceData_replicate z hjd]
            exact ih ds sh3 z hsh2
          rw [omap_eq_map (List.range d) hrw]
          simp only [Option.map_some']
          congr 1
          rw [List.map_const', List.length_range, flatten_replicate, List.prod_cons]

theorem setTensor_getTensor (t : Tensor) (indices : List Atom) (vals : Tensor)
    (sh2 : List Nat) (hw : t.wf) (hsh : indexShape indices t.shape = some sh2)
    (hvs : vals.shape = sh2) (hvl : vals.data.length = sh2.prod) :
    ∃ out : List Int, setTensor t indices vals = some ⟨t.shape, out⟩ ∧
      getTensor ⟨t.shape, out⟩ indices = some vals := by
  obtain ⟨vshape, vdata⟩ := vals
  subst hvs
  obtain ⟨out, hout⟩ := setData_exists indices t.shape vshape t.data vdata hw hsh hvl
  refine ⟨out, ?_, ?_⟩
  · simp [setTensor, hsh, hout]
  · dsimp only [getTensor]
    rw [hsh, setData_get indices t.shape t.data vdata out hw hout]
    rfl

theorem setApplyH_spec (σ : Store) (r : Ref) (indices : List Atom) (vals : Tensor)
    (σ2 : Store) (r2 : Ref) (h : setApplyH σ r indices vals = some (σ2, r2)) :
    r2 = r ∧
    Store.read σ2 r = (Store.read σ r).bind (fun t => setForward t indices vals) ∧
    ∀ r3, r3 ≠ r → Store.read σ2 r3 = Store.read σ r3 := by
  unfold setApplyH at h
  cases hread : Store.read σ r with
  | none => rw [hread] at h; simp at h
  | some t =>
      rw [hread] at h
      simp only [Option.some_bind] at h
      cases hsf : setForward t indices vals with
      | none => rw [hsf] at h; simp at h
      | some t2 =>
          rw [hsf] at h
          simp only [Option.map_some', Option.some.injEq, Prod.mk.injEq] at h
          obtain ⟨hσ, hr⟩ := h
          subst hσ
          subst hr
          obtain ⟨hlt, _⟩ := List.get?_eq_some.mp hread
          refine ⟨rfl, ?_, ?_⟩
          · simp only [Store.read, Store.write, hread, Option.some_bind, hsf]
            exact List.get?_set_eq_of_lt t2 hlt
          · intro r3 hr3
            simp only [Store.read, Store.write]
            exact List.get?_set_ne t2 σ (Ne.symm hr3)

/-! Claim theorems. -/

/-- C1: in `_Struct.sum(edge, lengths, _autograd, _raw)`, the autograd path is taken
exactly when `_autograd` is set, or the active semiring is not the log semiring, or the
structure has no `_dp_backward`; on that path `sum` invokes `_dp(edge, lengths)`, takes
its first return value `v`, and returns `v` unchanged when `_raw` is set and
`semiring.unconvert(v)` otherwise. -/
theorem sum_branch_selection (s : StructM) (edge : Tensor) (lengths : Lengths)
    (a raw : Bool) :
    ((s.sum edge lengths a raw).1.usedAutograd = true ↔
      (a = true ∨ s.semiring.sid ≠ SemiringId.log ∨ s.dpBackward.isNone = true)) ∧
    ((a = true ∨ s.semiring.sid ≠ SemiringId.log ∨ s.dpBackward.isNone = true) →
      (s.sum edge lengths a raw).1.value =
        (if raw then (s.dp edge lengths false true).1
         else s.semiring.unconvert (s.dp edge lengths false true).1)) := by
  unfold StructM.sum
  split
  next h => exact ⟨⟨fun _ => h, fun _ => rfl⟩, fun _ => rfl⟩
  next h =>
    refine ⟨⟨fun hh => ?_, fun hc => absurd hc h⟩, fun hc => absurd hc h⟩
    exact Bool.noConfusion hh

/-- Witness for C1 at a concrete collaborator: the semiring is not the log semiring, so
the autograd path runs even with `_autograd = false`, and with `_raw = true` the value
returned is exactly the first component of `_dp(edge, lengths)`. -/
theorem sum_branch_selection_witness :
    (witSumStruct.sum ⟨[1, 2], [0, 0]⟩ none false true).1.value = ⟨[1, 2], [3, 5]⟩ := by
  have h := (sum_branch_selection witSumStruct ⟨[1, 2], [0, 0]⟩ none false true).2
    (Or.inr (Or.inl (by decide)))
  simpa using h

/-- C2 (code bug): evaluating `DPManual.backward` on concrete inputs.  With
collaborator marginals of shape `(1, 2)` (batch one) and `grad_v = [2]`, the returned
gradient is `[[[6, 8]]]` of shape `(1, 1, 2)`: `grad_v` is viewed to
`(grad_v.shape[0],) + (1,) * marginals.dim()`, which carries one singleton axis per
marginals axis plus the leading axis, so the product has one more axis than the
marginals instead of being the marginals scaled per batch element at the same shape;
and with a semiring-shaped `grad_v` of shape `(1, 2)` (batch two) the `view` to a
one-element shape fails outright. -/
theorem dpManualBackward_extra_axis :
    dpManualBackward manualStruct ⟨[1, 2], [0, 0]⟩ none [] ⟨[1], [2]⟩
        = some ⟨[1, 1, 2], [6, 8]⟩ ∧
    (⟨[1, 1, 2], [6, 8]⟩ : Tensor).shape ≠ (⟨[1, 2], [3, 4]⟩ : Tensor).shape ∧
    dpManualBackward manualStruct ⟨[1, 2], [0, 0]⟩ none [] ⟨[1, 2], [2, 3]⟩ = none :=
  ⟨rfl, by decide, rfl⟩

/-- C3 (counterexample): with a compliant log semiring (`unconvert` removes the leading
semiring-arity axis) and a deterministic `_dp` whose value is `[[3, 5]]` (arity one,
batch two), the autograd path of `marginals` hands the engine the single rank-zero
objective `8 = 3 + 5`: the summation `unconvert(v).sum(dim=0)` runs over the batch axis
of the unconverted value (shape `[2]`), not over the semiring-arity axis (already
removed), and the objective is one total scalar, not a scalar per batch element (which
would have shape `[2]`). -/
theorem marginals_objective_counterexample :
    (cexDpStruct.marginals idOracle ⟨[1, 2], [0, 0]⟩ none true false).2.objectives
        = [⟨[], [8]⟩] ∧
    (squeezeUnconvert ⟨[1, 2], [3, 5]⟩).shape = [2] ∧
    (⟨[], [8]⟩ : Tensor).shape ≠ [2] :=
  ⟨rfl, rfl, by decide⟩

/-- C3 (amended): on the autograd path of `marginals`, the driver runs `_dp` with
gradient tracking forced on and with `cache = not _raw`; it forms a single scalar
objective by summing along the leading axis — of `v[k]` for each semiring slot `k` when
`_raw` is set, of the unconverted value (whose leading axis is the batch axis once
`unconvert` has removed the semiring-arity axis) otherwise — then differentiates that
objective with respect to the edge tensors, one differentiation per semiring slot
(stacked over slots) when `_raw` is set and a single differentiation otherwise, and
with the default `_arrange_marginals` keeps only the first edge tensor's gradient. -/
theorem marginals_autograd_description (s : StructM) (eng : AutogradOracle)
    (edge : Tensor) (lengths : Lengths) (raw : Bool)
    (harr : s.arrangeMarginals = arrangeMarginalsBase) :
    ((s.marginals eng edge lengths true raw).2.dpForceGrad = true) ∧
    ((s.marginals eng edge lengths true raw).2.dpCache = !raw) ∧
    (raw = true →
      (s.marginals eng edge lengths true raw).2.objectives =
        (List.range ((s.dp edge lengths true (!raw)).1.shape.headD 0)).map
          (fun k => ((s.dp edge lengths true (!raw)).1.select0 k).sumDim0) ∧
      (s.marginals eng edge lengths true raw).2.gradCalls =
        (s.dp edge lengths true (!raw)).1.shape.headD 0 ∧
      (s.marginals eng edge lengths true raw).1 =
        Tensor.stack0 ((s.marginals eng edge lengths true raw).2.objectives.map
          (fun obj => s.semiring.unconvert
            ((eng.grad obj (s.dp edge lengths true (!raw)).2.1).headD ⟨[], []⟩)))) ∧
    (raw = false →
      (s.marginals eng edge lengths true raw).2.objectives =
        [(s.semiring.unconvert (s.dp edge lengths true (!raw)).1).sumDim0] ∧
      (s.marginals eng edge lengths true raw).2.gradCalls = 1 ∧
      (s.marginals eng edge lengths true raw).1 =
        s.semiring.unconvert
          ((eng.grad ((s.semiring.unconvert (s.dp edge lengths true (!raw)).1).sumDim0)
            (s.dp edge lengths true (!raw)).2.1).headD ⟨[], []⟩)) := by
  have hcond :
      (true = true ∨ s.semiring.sid ≠ SemiringId.log ∨ s.dpBackward.isNone = true) :=
    Or.inl rfl
  unfold StructM.marginals
  rw [if_pos hcond]
  cases raw with
  | false =>
    refine ⟨rfl, rfl, fun h => Bool.noConfusion h, fun _ => ⟨rfl, rfl, ?_⟩⟩
    rw [harr]
    rfl
  | true =>
    refine ⟨rfl, rfl, fun _ => ⟨rfl, rfl, ?_⟩, fun h => Bool.noConfusion h⟩
    rw [harr]
    rfl

/-- Witness for C3 (amended) at the concrete collaborator: the single objective of the
non-raw autograd path is the unconverted value summed along its leading axis. -/
theorem marginals_autograd_description_witness :
    (cexDpStruct.marginals idOracle ⟨[1, 2], [0, 0]⟩ none true false).2.objectives =
      [(cexDpStruct.semiring.unconvert
          (cexDpStruct.dp ⟨[1, 2], [0, 0]⟩ none true (!false)).1).sumDim0] :=
  ((marginals_autograd_description cexDpStruct idOracle ⟨[1, 2], [0, 0]⟩ none false
    rfl).2.2.2 rfl).1

/-- C4: on a fresh chart (semiring-zero-filled data, any identity value), a
`Set.forward` write of shape-matched values at a valid index tuple followed
immediately by a `Get.forward` read at the same indices returns exactly the written
values. -/
theorem set_then_get_roundtrip (ssize : Nat) (size : List Nat) (zval : Int)
    (cache : Bool) (indices : List Atom) (vals : Tensor) (sh2 : List Nat)
    (hsh : indexShape indices (ssize :: size) = some sh2)
    (hvs : vals.shape = sh2) (hvl : vals.data.length = sh2.prod) :
    ∃ out : List Int,
      setForward (ChartT.init ssize size zval cache).data indices vals
          = some ⟨ssize :: size, out⟩ ∧
      getForward ⟨ssize :: size, out⟩ (ChartT.init ssize size zval cache).grad indices
          = some vals := by
  obtain ⟨out, h1, h2⟩ :=
    setTensor_getTensor (fullT (ssize :: size) zval) indices vals sh2
      (by simp [Tensor.wf, fullT]) hsh hvs hvl
  exact ⟨out, h1, h2⟩

/-- Witness for C4: writing `[7]` at `(:, 1)` into a fresh one-by-two chart and
reading the same position back returns `[7]`. -/
theorem set_then_get_roundtrip_witness :
    ∃ out : List Int,
      setForward (ChartT.init 1 [2] 0 true).data [Atom.all, Atom.idx 1] ⟨[1], [7]⟩
          = some ⟨1 :: [2], out⟩ ∧
      getForward ⟨1 :: [2], out⟩ (ChartT.init 1 [2] 0 true).grad [Atom.all, Atom.idx 1]
          = some ⟨[1], [7]⟩ :=
  set_then_get_roundtrip 1 [2] 0 true [Atom.all, Atom.idx 1] ⟨[1], [7]⟩ [1]
    (by decide) (by decide) (by decide)

/-- C5: starting from a fresh chart's numeric-zero gradient buffer, two `Get.backward`
passes at the same valid index `i` with upstream gradients `g1` and `g2` leave the
buffer holding `g1 + g2` at `i`; each backward returns the updated buffer together
with `(None, None)` — no gradient for the `grad_chart` or `indices` arguments. -/
theorem get_backward_accumulation (ssize : Nat) (size : List Nat) (zval : Int)
    (cache : Bool) (i : List Atom) (g1 g2 : Tensor) (sh2 : List Nat)
    (hsh : indexShape i (ssize :: size) = some sh2)
    (hg1s : g1.shape = sh2) (hg2s : g2.shape = sh2)
    (hg1l : g1.data.length = sh2.prod) (hg2l : g2.data.length = sh2.prod) :
    ∃ d1 d2 : List Int,
      getBackward (ChartT.init ssize size zval cache).grad i g1
          = some (⟨ssize :: size, d1⟩, none, none) ∧
      getBackward ⟨ssize :: size, d1⟩ i g2 = some (⟨ssize :: size, d2⟩, none, none) ∧
      getTensor ⟨ssize :: size, d2⟩ i
          = some ⟨sh2, List.zipWith (· + ·) g1.data g2.data⟩ := by
  have hzlen : (List.replicate ((ssize :: size).prod) (0 : Int)).length
      = (ssize :: size).prod := List.length_replicate _ _
  have hcur0 : getTensor (fullT (ssize :: size) 0) i
      = some ⟨sh2, List.replicate sh2.prod 0⟩ := by
    dsimp only [getTensor, fullT]
    rw [hsh, indexData_replicate i (ssize :: size) sh2 0 hsh]
    rfl
  have hzip1 : List.zipWith (· + ·) (List.replicate sh2.prod (0 : Int)) g1.data
      = g1.data := by
    rw [← hg1l]
    exact zipWith_replicate_zero_add g1.data
  obtain ⟨d1, hd1⟩ := setData_exists i (ssize :: size) sh2
    (List.replicate ((ssize :: size).prod) 0) g1.data hzlen hsh hg1l
  have hd1len : d1.length = (ssize :: size).prod :=
    setData_length i (ssize :: size) _ g1.data d1 hzlen hd1
  have hread1 : indexData i (ssize :: size) d1 = some g1.data :=
    setData_get i (ssize :: size) _ g1.data d1 hzlen hd1
  have hcur1 : getTensor ⟨ssize :: size, d1⟩ i = some ⟨sh2, g1.data⟩ := by
    dsimp only [getTensor]
    rw [hsh, hread1]
    rfl
  have hzip2len : (List.zipWith (· + ·) g1.data g2.data).length = sh2.prod := by
    rw [List.length_zipWith, hg1l, hg2l, Nat.min_self]
  obtain ⟨d2, hd2⟩ := setData_exists i (ssize :: size) sh2 d1
    (List.zipWith (· + ·) g1.data g2.data) hd1len hsh hzip2len
  have hread2 : indexData i (ssize :: size) d2
      = some (List.zipWith (· + ·) g1.data g2.data) :=
    setData_get i (ssize :: size) d1 _ d2 hd1len hd2
  refine ⟨d1, d2, ?_, ?_, ?_⟩
  · dsimp only [getBackward, ChartT.init]
    rw [hcur0]
    simp only [Option.some_bind]
    rw [if_pos ⟨by simpa using hg1s, by simpa using hg1l⟩]
    dsimp only [fullT]
    rw [hzip1, hd1]
    rfl
  · dsimp only [getBackward]
    rw [hcur1]
    simp only [Option.some_bind]
    rw [if_pos ⟨by simpa [hg1s] using hg2s, by simp [hg1l, hg2l]⟩]
    rw [hd2]
    rfl
  · dsimp only [getTensor]
    rw [hsh, hread2]
    rfl

/-- Witness for C5: two backward passes at `(:, 0)` of a fresh one-by-two chart with
upstream gradients `[4]` and `[6]` leave `[10]` in the gradient buffer there. -/
theorem get_backward_accumulation_witness :
    ∃ d1 d2 : List Int,
      getBackward (ChartT.init 1 [2] 0 true).grad [Atom.all, Atom.idx 0] ⟨[1], [4]⟩
          = some (⟨1 :: [2], d1⟩, none, none) ∧
      getBackward ⟨1 :: [2], d1⟩ [Atom.all, Atom.idx 0] ⟨[1], [6]⟩
          = some (⟨1 :: [2], d2⟩, none, none) ∧
      getTensor ⟨1 :: [2], d2⟩ [Atom.all, Atom.idx 0]
          = some ⟨[1], List.zipWith (· + ·) [4] [6]⟩ :=
  get_backward_accumulation 1 [2] 0 true [Atom.all, Atom.idx 0] ⟨[1], [4]⟩ ⟨[1], [6]⟩
    [1] (by decide) (by decide) (by decide) (by decide) (by decide)

/-- C6 (counterexample): a chart whose `data` lives at store address 0 with values
`[5, 5]`; after `chart[(0,)] = [9]` through `__setitem__`, dereferencing the OLD
address observes `[9, 5]`, not the pre-write `[5, 5]`: the write mutated the
previously referenced tensor in place rather than leaving it intact. -/
theorem chartSetitem_alias_counterexample :
    chartSetitemH [⟨[1, 1, 2], [5, 5]⟩, ⟨[1, 1, 2], [0, 0]⟩] ⟨0, 1, true⟩
        [Atom.idx 0] ⟨[1, 1], [9]⟩
      = some ([⟨[1, 1, 2], [9, 5]⟩, ⟨[1, 1, 2], [0, 0]⟩], ⟨0, 1, true⟩) ∧
    Store.read [⟨[1, 1, 2], [9, 5]⟩, ⟨[1, 1, 2], [0, 0]⟩] 0
      ≠ some ⟨[1, 1, 2], [5, 5]⟩ :=
  ⟨rfl, by decide⟩

/-- C6 (amended): `Chart.__setitem__` (and `Chart.set`) rebind `self.data` to the
reference returned by `Set.apply`, but `Set.forward` performs the assignment on the
existing tensor object in place and returns that same reference, so the rebinding is
to the same object: a holder of a reference to the previous `data` tensor observes the
post-write values at the written indices, while every other store object is
untouched. -/
theorem chartSetitem_rebinds_same_object (σ : Store) (c : ChartH) (ind : List Atom)
    (new : Tensor) (σ2 : Store) (c2 : ChartH)
    (h : chartSetitemH σ c ind new = some (σ2, c2)) :
    c2.dataRef = c.dataRef ∧
    Store.read σ2 c.dataRef =
      (Store.read σ c.dataRef).bind
        (fun t => setForward t ([Atom.all, Atom.all] ++ ind) new) ∧
    (∀ r, r ≠ c.dataRef → Store.read σ2 r = Store.read σ r) ∧
    (∀ σ3 c3, chartSetH σ c ind new = some (σ3, c3) →
      c3.dataRef = c.dataRef ∧
      Store.read σ3 c.dataRef =
        (Store.read σ c.dataRef).bind (fun t => setForward t ind new)) := by
  have hset : ∀ σ3 c3, chartSetH σ c ind new = some (σ3, c3) →
      c3.dataRef = c.dataRef ∧
      Store.read σ3 c.dataRef =
        (Store.read σ c.dataRef).bind (fun t => setForward t ind new) := by
    intro σ3 c3 h3
    unfold chartSetH at h3
    cases hap : setApplyH σ c.dataRef ind new with
    | none => rw [hap] at h3; simp at h3
    | some p =>
        rw [hap] at h3
        simp only [Option.map_some', Option.some.injEq, Prod.mk.injEq] at h3
        obtain ⟨hσ3, hc3⟩ := h3
        obtain ⟨hr, hrd, _⟩ := setApplyH_spec σ c.dataRef ind new p.1 p.2 (by rw [hap])
        subst hσ3
        exact ⟨by rw [← hc3]; simp [hr], hrd⟩
  refine ?_
  unfold chartSetitemH at h
  split at h
  all_goals
    cases hap : setApplyH σ c.dataRef ([Atom.all, Atom.all] ++ ind) new with
    | none => rw [hap] at h; simp at h
    | some p =>
        rw [hap] at h
        simp only [Option.map_some', Option.some.injEq, Prod.mk.injEq] at h
        obtain ⟨hσ2, hc2⟩ := h
        obtain ⟨hr, hrd, hfr⟩ :=
          setApplyH_spec σ c.dataRef ([Atom.all, Atom.all] ++ ind) new p.1 p.2
            (by rw [hap])
        subst hσ2
        exact ⟨by subst hc2; simp [hr], hrd, hfr, hset⟩

/-- Witness for C6 (amended) at the concrete store: after the write, the old data
address dereferences to the post-write tensor. -/
theorem chartSetitem_rebinds_same_object_witness :
    Store.read [⟨[1, 1, 2], [9, 5]⟩, ⟨[1, 1, 2], [0, 0]⟩] 0 =
      (Store.read [⟨[1, 1, 2], [5, 5]⟩, ⟨[1, 1, 2], [0, 0]⟩] 0).bind
        (fun t => setForward t ([Atom.all, Atom.all] ++ [Atom.idx 0]) ⟨[1, 1], [9]⟩) :=
  (chartSetitem_rebinds_same_object [⟨[1, 1, 2], [5, 5]⟩, ⟨[1, 1, 2], [0, 0]⟩]
    ⟨0, 1, true⟩ [Atom.idx 0] ⟨[1, 1], [9]⟩
    [⟨[1, 1, 2], [9, 5]⟩, ⟨[1, 1, 2], [0, 0]⟩] ⟨0, 1, true⟩ (by decide)).2.1

/-- C7 (code bug): `_bin_length` feeds the platform's double-precision
`math.log(length, 2)` to `ceil`.  On CPython with standard libm,
`math.log(2 ** 29, 2)` evaluates to `29.000000000000004`, strictly above 29 (the
two-argument form divides two rounded binary64 logarithms), so the ceiling is 30
and `_bin_length(2 ** 29)` returns `(30, 2 ** 30)` — even though `2 ** 29` itself
is a power of two at least `length` and smaller than the returned bound.  This
contradicts the claim, and the method's own docstring ("Find least upper bound for
lengths that is a power of 2").  The theorem evaluates the translation at every
platform logarithm value in the observed range `(29, 30]`. -/
theorem binLength_fp_not_least (flog2 : Nat → ℚ)
    (hlo : 29 < flog2 (2 ^ 29)) (hhi : flog2 (2 ^ 29) ≤ 30) :
    binLength flog2 (2 ^ 29) = (30, 2 ^ 30) ∧
    (2 ^ 29 : Nat) ≤ 2 ^ 29 ∧ (2 ^ 29 : Nat) < 2 ^ 30 := by
  have hceil : ⌈flog2 (2 ^ 29)⌉ = 30 := by
    have h1 : ⌈flog2 (2 ^ 29)⌉ ≤ 30 := Int.ceil_le.mpr (by exact_mod_cast hhi)
    have h2 : (29 : ℤ) < ⌈flog2 (2 ^ 29)⌉ := Int.lt_ceil.mpr (by exact_mod_cast hlo)
    omega
  refine ⟨?_, le_refl _, by norm_num⟩
  simp only [binLength, hceil]
  rfl

/-- Witness for C7 at the concrete platform value: any binary64 reading of
`29.000000000000004` is a rational strictly between 29 and 30, and the function
then returns `(30, 2 ** 30)` instead of the least power of two at least
`2 ** 29`. -/
theorem binLength_fp_not_least_witness :
    binLength (fun _ => 29 + 4 / 1000000000000000) (2 ^ 29) = (30, 2 ^ 30) ∧
    (2 ^ 29 : Nat) ≤ 2 ^ 29 ∧ (2 ^ 29 : Nat) < 2 ^ 30 :=
  binLength_fp_not_least (fun _ => 29 + 4 / 1000000000000000) (by norm_num)
    (by norm_num)

/-- C8: the unimplemented hooks `_dp`, `enumerate` and `_rand` of the base `_Struct`
signal `NotImplementedError` for every input; no handler or retry exists anywhere in
this layer, so the failure is fatal to the call. -/
theorem base_hooks_not_implemented :
    (∀ scores lengths forceGrad cache,
      baseDp scores lengths forceGrad cache = .error .notImplementedError) ∧
    (∀ edge lengths, baseEnumerate edge lengths = .error .notImplementedError) ∧
    (∀ args, baseRand args = .error .notImplementedError) :=
  ⟨fun _ _ _ _ => rfl, fun _ _ => rfl, fun _ => rfl⟩

/-- C9: `sum` with `_autograd = True` carries no hidden mutable state across calls:
the post-call object state equals the pre-call state (the method assigns no
attribute), so a second call with identical inputs and the same deterministic `_dp`
collaborator returns the identical result. -/
theorem sum_no_hidden_state (s : StructM) (edge : Tensor) (lengths : Lengths)
    (raw : Bool) :
    (s.sum edge lengths true raw).2 = s ∧
    ((s.sum edge lengths true raw).2.sum edge lengths true raw).1 =
      (s.sum edge lengths true raw).1 := by
  have h2 : (s.sum edge lengths true raw).2 = s := by
    unfold StructM.sum
    split <;> rfl
  exact ⟨h2, by rw [h2]⟩

/-- C10: `Chart.__getitem__` and `__setitem__` accept only tuple indices — the
supplied index is prepended with two full slices by tuple concatenation, so a bare
(non-tuple) index fails with `TypeError` before any read or write — whereas
`Chart.get` and `Chart.set` pass the index through unmodified and accept exactly the
indices the underlying tensor accepts. -/
theorem chart_tuple_indexing (data grad : Tensor) (cache : Bool) (a : Atom)
    (atoms : List Atom) (vals : Tensor) (ix : PyIx) :
    (chartGetitem ⟨data, grad, cache⟩ (PyIx.bare a) = .error .typeError) ∧
    (chartSetitem ⟨data, grad, cache⟩ (PyIx.bare a) vals = .error .typeError) ∧
    (chartGetitem ⟨data, grad, cache⟩ (PyIx.tup atoms) =
      exceptOfOption (getTensor data ([Atom.all, Atom.all] ++ atoms))) ∧
    (chartGet ⟨data, grad, cache⟩ ix = exceptOfOption (tensorIndexPy data ix)) ∧
    (chartSet ⟨data, grad, cache⟩ ix vals =
      (match tensorSetPy data ix vals with
        | some d2 => .ok ⟨d2, grad, cache⟩
        | none => .error .indexError)) := by
  refine ⟨rfl, rfl, ?_, rfl, rfl⟩
  cases cache <;> rfl

end TorchStruct
